import Mathlib

/-!
Verification of the socket-resolution core of ffxiv-netstatd
(src/ffxiv-netstatd/src/main.rs), a daemon that republishes the TCP
sockets owned by a target process.

Embedding conventions:
* Rust strings are modelled as `List Char`; column offsets are character
  positions (the source only ever slices ASCII kernel tables, where Rust
  byte offsets and character positions coincide).
* Filesystem reads are out of scope, so the data they would return is
  passed in explicitly: the process directory as a list of `ProcEntry`
  (name, directory flag, contents of the stat file), the socket
  descriptor inode set as a list of decimal strings, and the text of
  the per-process connection table as one string.
* The source handles failure by panicking (`unwrap`).  Each panic site
  is modelled as an `Except` error, labelled with the error taxonomy of
  the design document: `notFound` for the missing-process unwrap,
  `malformedTable` for the missing-header unwrap, `malformedAddress`
  for the address-parsing unwraps.  Two further panic sites fall outside
  that taxonomy and get their own labels: `sliceOutOfRange` for a string
  slice whose range exceeds the line, and `missingField` for indexing a
  row map with an absent key.
* Rust standard-library functions used by the source (`str::lines`,
  `str::trim`, `str::split`, `str::rsplit_once`, `u32::from_str_radix`,
  `char::is_numeric`) are given faithful models below, restricted to the
  ASCII-relevant behaviour where the full Unicode tables do not matter.
-/

/-- Failure labels for the panic sites of the source, following the
error taxonomy of the design document where it names one. -/
inductive NetErr where
  | notFound
  | malformedTable
  | malformedAddress
  | sliceOutOfRange
  | missingField
deriving DecidableEq

/-- `struct Ipv4SocketAddr { ip: u32, port: u16 }`.  The numeric fields
are modelled as `Nat`; the parsers below enforce the `u32`/`u16` bounds
exactly where the Rust integer parsers do. -/
structure Ipv4SocketAddr where
  ip : Nat
  port : Nat
deriving DecidableEq

/-- `struct SocketAddrPair { local: Ipv4SocketAddr, remote: Ipv4SocketAddr }`. -/
structure SocketAddrPair where
  «local» : Ipv4SocketAddr
  remote : Ipv4SocketAddr
deriving DecidableEq

/-- `struct HeaderField { name: &str, start_col: usize, end_col: Option<usize> }`. -/
structure HeaderField where
  name : List Char
  start_col : Nat
  end_col : Option Nat
deriving DecidableEq

/-- Model of Rust `str::trim`: removes leading and trailing whitespace.
For the ASCII characters occurring in kernel tables this agrees with
Rust, whose trim uses the Unicode White_Space property. -/
def rust_trim (s : List Char) : List Char :=
  ((s.dropWhile Char.isWhitespace).reverse.dropWhile Char.isWhitespace).reverse

/-- Model of Rust `str::split(sep)` collected into a list: splits on every
occurrence of `sep`; the empty string yields one empty part. -/
def split_on_char (sep : Char) : List Char → List (List Char)
  | [] => [[]]
  | c :: rest =>
    let r := split_on_char sep rest
    if c = sep then [] :: r
    else
      match r with
      | [] => [[c]]
      | l :: ls => (c :: l) :: ls

/-- Model of Rust `str::split_inclusive` at the newline character: each part
keeps its terminating newline; the empty string yields no parts. -/
def split_inclusive_nl : List Char → List (List Char)
  | [] => []
  | c :: rest =>
    if c = '\n' then [c] :: split_inclusive_nl rest
    else
      match split_inclusive_nl rest with
      | [] => [[c]]
      | l :: ls => (c :: l) :: ls

/-- Model of Rust `str::strip_suffix` for a one-character suffix. -/
def strip_suffix_char (c : Char) (l : List Char) : Option (List Char) :=
  match l.getLast? with
  | some d => if d = c then some l.dropLast else none
  | none => none

/-- The per-line cleanup inside Rust `str::lines`: strip one trailing
newline, and a trailing carriage return only when a newline was stripped. -/
def line_map (l : List Char) : List Char :=
  match strip_suffix_char '\n' l with
  | none => l
  | some l1 =>
    match strip_suffix_char '\r' l1 with
    | none => l1
    | some l2 => l2

/-- Model of Rust `str::lines`. -/
def rust_lines (s : List Char) : List (List Char) :=
  (split_inclusive_nl s).map line_map

/-- Model of Rust `str::rsplit_once(sep)`: splits at the last occurrence
of `sep`, returning the parts before and after it. -/
def rsplit_once (sep : Char) : List Char → Option (List Char × List Char)
  | [] => none
  | c :: rest =>
    match rsplit_once sep rest with
    | some (l, r) => some (c :: l, r)
    | none => if c = sep then some ([], rest) else none

/-- Model of Rust `char::to_digit(16)`: the value of one hexadecimal
digit, upper or lower case. -/
def hex_digit_val (c : Char) : Option Nat :=
  if '0' ≤ c ∧ c ≤ '9' then some (c.toNat - '0'.toNat)
  else if 'a' ≤ c ∧ c ≤ 'f' then some (c.toNat - 'a'.toNat + 10)
  else if 'A' ≤ c ∧ c ≤ 'F' then some (c.toNat - 'A'.toNat + 10)
  else none

/-- Digit loop of Rust `uN::from_str_radix(s, 16)`: accumulate base-16
digits with an overflow check against `bound` (2 ^ bit width) at each
step, exactly as the checked arithmetic of the Rust parser does. -/
def parse_hex_digits (bound : Nat) : List Char → Nat → Option Nat
  | [], acc => some acc
  | c :: cs, acc =>
    match hex_digit_val c with
    | none => none
    | some d =>
      if acc * 16 + d < bound then parse_hex_digits bound cs (acc * 16 + d)
      else none

/-- Model of Rust `uN::from_str_radix(s, 16)` for an unsigned width with
modulus `bound`: an optional leading plus sign, then one or more
hexadecimal digits, value below `bound`.  A minus sign is rejected for
unsigned types, as is an empty digit string. -/
def from_str_radix_16 (bound : Nat) (s : List Char) : Option Nat :=
  match s with
  | '+' :: rest => if rest = [] then none else parse_hex_digits bound rest 0
  | [] => none
  | _ => parse_hex_digits bound s 0

/-- `u32::from_str_radix(s, 16)`. -/
def u32_from_str_radix (s : List Char) : Option Nat :=
  from_str_radix_16 (2 ^ 32) s

/-- `u16::from_str_radix(s, 16)`. -/
def u16_from_str_radix (s : List Char) : Option Nat :=
  from_str_radix_16 (2 ^ 16) s

/-- `fn parse_hex_sockaddr(addr: &str) -> Ipv4SocketAddr` (main.rs lines
38 to 44): split on the last colon, parse the left part as hexadecimal
`u32` and the right part as hexadecimal `u16`.  The three `unwrap`
panics are modelled as the `malformedAddress` error. -/
def parse_hex_sockaddr (addr : List Char) : Except NetErr Ipv4SocketAddr :=
  match rsplit_once ':' addr with
  | none => .error .malformedAddress
  | some (ip_str, port_str) =>
    match u32_from_str_radix ip_str, u16_from_str_radix port_str with
    | some ip, some port => .ok ⟨ip, port⟩
    | _, _ => .error .malformedAddress

/-- Loop body of `fn parse_header` (main.rs lines 111 to 136): `i` is the
index of the first character of `rest` within `header`;
`current_field_start` and `prev_was_separator` are the loop variables of
the source; `fields` is the accumulator. -/
def parse_header_go (header : List Char) (i : Nat) (rest : List Char)
    (current_field_start : Option Nat) (prev_was_separator : Bool)
    (fields : List HeaderField) : List HeaderField :=
  match rest with
  | [] =>
    match current_field_start with
    | some s => fields ++ [⟨rust_trim (header.drop s), s, none⟩]
    | none => fields
  | chr :: rest =>
    if chr ≠ ' ' ∧ prev_was_separator = true then
      match current_field_start with
      | some s =>
        parse_header_go header (i + 1) rest (some i) (chr == ' ')
          (fields ++ [⟨rust_trim ((header.drop s).take (i - s)), s, some i⟩])
      | none =>
        parse_header_go header (i + 1) rest (some i) (chr == ' ') fields
    else
      parse_header_go header (i + 1) rest current_field_start (chr == ' ') fields

/-- `fn parse_header(header: &str) -> Vec<HeaderField>` (main.rs lines
111 to 136). -/
def parse_header (header : List Char) : List HeaderField :=
  parse_header_go header 0 header none true []

/-- The field slice of one data line (main.rs lines 71 to 75):
`&conn[start_col..end_col]` when the field is bounded, `&conn[start_col..]`
for the open-ended final field.  Rust string slicing panics when the
range does not fit inside the line; that panic is the `sliceOutOfRange`
error. -/
def slice_field (conn : List Char) (f : HeaderField) : Except NetErr (List Char) :=
  match f.end_col with
  | some end_col =>
    if f.start_col ≤ end_col ∧ end_col ≤ conn.length then
      .ok ((conn.drop f.start_col).take (end_col - f.start_col))
    else .error .sliceOutOfRange
  | none =>
    if f.start_col ≤ conn.length then .ok (conn.drop f.start_col)
    else .error .sliceOutOfRange

/-- The value taken from a field slice (main.rs lines 76 to 79):
`.trim().split(' ').next().unwrap_or_default()` — the first
space-delimited token of the trimmed slice. -/
def field_token (s : List Char) : List Char :=
  (split_on_char ' ' (rust_trim s)).headD []

/-- The slice of one data line for a field, without the bounds check:
what `slice_field` returns whenever the spans fit inside the line. -/
def span_slice (conn : List Char) (f : HeaderField) : List Char :=
  match f.end_col with
  | some e => (conn.drop f.start_col).take (e - f.start_col)
  | none => conn.drop f.start_col

/-- One data row turned into a field-name/value record (main.rs lines 65
to 82): for each header field, slice the line by its span and keep the
first token of the trimmed slice.  Field order follows header order, as
the source iterator does. -/
def parse_conn_row (headers : List HeaderField) (conn : List Char) :
    Except NetErr (List (List Char × List Char)) :=
  match headers with
  | [] => .ok []
  | f :: fs => do
    let raw ← slice_field conn f
    let rest ← parse_conn_row fs conn
    pure ((f.name, field_token raw) :: rest)

/-- Lookup in the row record, modelling `BTreeMap` collection followed by
indexing (`conn["inode"]` and friends, main.rs lines 82 to 87): with
duplicate keys the last insertion wins, and indexing a missing key
panics — the `missingField` error. -/
def record_get (record : List (List Char × List Char)) (key : List Char) :
    Except NetErr (List Char) :=
  match record.reverse.find? (fun e => e.1 == key) with
  | some e => .ok e.2
  | none => .error .missingField

/-- The fused row pipeline of `get_ffxiv_sockets` (main.rs lines 64 to
90): for each data line in order, build its record, look up its
`inode`, keep the row only when the inode is in the socket set, and for
a kept row decode `local_address` and then `rem_address`.  The element
order and the error order match the fused Rust iterator chain. -/
def process_conns (headers : List HeaderField) (socket_fds : List (List Char)) :
    List (List Char) → Except NetErr (List SocketAddrPair)
  | [] => .ok []
  | conn :: conns => do
    let record ← parse_conn_row headers conn
    let inode ← record_get record "inode".toList
    if socket_fds.contains inode then
      let local_str ← record_get record "local_address".toList
      let local_addr ← parse_hex_sockaddr local_str
      let rem_str ← record_get record "rem_address".toList
      let rem_addr ← parse_hex_sockaddr rem_str
      let rest ← process_conns headers socket_fds conns
      pure (⟨local_addr, rem_addr⟩ :: rest)
    else
      process_conns headers socket_fds conns

/-- One entry of the process directory as `find_ffxiv_proc_path` consumes
it: the entry name, whether it is a directory, and the contents of its
stat file. -/
structure ProcEntry where
  name : List Char
  is_dir : Bool
  stat : List Char

/-- Model of Rust `char::is_numeric` restricted to ASCII: a decimal
digit.  (The Unicode numeric classes only add characters that never
occur in process-directory names.) -/
def rust_is_numeric (c : Char) : Bool :=
  c.isDigit

/-- The stat test of `find_ffxiv_proc_path` (main.rs line 31):
`stat.split(' ').nth(1) == Some("(ffxiv_dx11.exe)")`. -/
def stat_matches (stat : List Char) : Bool :=
  (split_on_char ' ' stat).get? 1 == some "(ffxiv_dx11.exe)".toList

/-- `fn find_ffxiv_proc_path() -> Option<PathBuf>` (main.rs lines 12 to
36) over an explicit directory listing: skip entries that are not
directories, skip names containing a non-numeric character, and return
the first entry whose stat record names the target executable. -/
def find_ffxiv_proc_path : List ProcEntry → Option (List Char)
  | [] => none
  | e :: rest =>
    if e.is_dir = false then find_ffxiv_proc_path rest
    else if e.name.any (fun c => !(rust_is_numeric c)) then find_ffxiv_proc_path rest
    else if stat_matches e.stat then some e.name
    else find_ffxiv_proc_path rest

/-- `fn get_ffxiv_sockets() -> Vec<SocketAddrPair>` (main.rs lines 46 to
91) with the filesystem inputs passed explicitly: the process directory
listing, the socket-descriptor inode set (already rendered to decimal
strings, as lines 48 to 56 do), and the connection-table text.  The
`unwrap` on the process lookup is the `notFound` error and the `unwrap`
on the missing header line is the `malformedTable` error. -/
def get_ffxiv_sockets (proc_entries : List ProcEntry)
    (ffxiv_socket_fds : List (List Char)) (tcp_conns_text : List Char) :
    Except NetErr (List SocketAddrPair) :=
  match find_ffxiv_proc_path proc_entries with
  | none => .error .notFound
  | some _ =>
    match rust_lines tcp_conns_text with
    | [] => .error .malformedTable
    | header_line :: conns =>
      process_conns (parse_header header_line) ffxiv_socket_fds conns

/-! ### Properties of `rsplit_once` -/

theorem rsplit_once_eq_none_iff (c : Char) (l : List Char) :
    rsplit_once c l = none ↔ c ∉ l := by
  induction l with
  | nil => simp [rsplit_once]
  | cons d rest ih =>
    cases h : rsplit_once c rest with
    | none =>
      by_cases hd : d = c
      · subst hd
        simp [rsplit_once, h]
      · simp [rsplit_once, h, hd, ih.mp h, Ne.symm hd]
    | some p =>
      have hmem : c ∈ rest := by
        by_contra hc
        rw [← ih] at hc
        rw [h] at hc
        exact Option.noConfusion hc
      simp [rsplit_once, h, hmem]

theorem rsplit_once_eq_some (c : Char) (l : List Char) :
    ∀ a b, rsplit_once c l = some (a, b) → l = a ++ c :: b ∧ c ∉ b := by
  induction l with
  | nil =>
    intro a b h
    exact absurd h (by simp [rsplit_once])
  | cons d rest ih =>
    intro a b h
    cases hr : rsplit_once c rest with
    | none =>
      simp only [rsplit_once, hr] at h
      by_cases hd : d = c
      · simp only [if_pos hd] at h
        injection h with h'
        injection h' with h1 h2
        subst h1
        subst h2
        exact ⟨by simp [hd], (rsplit_once_eq_none_iff c rest).mp hr⟩
      · simp only [if_neg hd] at h
        exact Option.noConfusion h
    | some p =>
      obtain ⟨pl, pr⟩ := p
      simp only [rsplit_once, hr] at h
      injection h with h'
      injection h' with h1 h2
      subst h1
      subst h2
      obtain ⟨ih1, ih2⟩ := ih pl pr hr
      exact ⟨by rw [ih1]; rfl, ih2⟩

theorem rsplit_once_append (c : Char) (l r : List Char) (hr : c ∉ r) :
    rsplit_once c (l ++ c :: r) = some (l, r) := by
  induction l with
  | nil =>
    have hn : rsplit_once c r = none := (rsplit_once_eq_none_iff c r).mpr hr
    simp [rsplit_once, hn]
  | cons d rest ih =>
    rw [List.cons_append]
    simp only [rsplit_once, ih]

/-- Equality on `Except` values is decidable when it is on both sides;
needed to evaluate the pipeline on concrete inputs. -/
instance (ε α : Type) [DecidableEq ε] [DecidableEq α] : DecidableEq (Except ε α)
  | .ok a, .ok b =>
    if h : a = b then .isTrue (by rw [h])
    else .isFalse (fun he => h (Except.ok.inj he))
  | .ok _, .error _ => .isFalse (fun he => Except.noConfusion he)
  | .error _, .ok _ => .isFalse (fun he => Except.noConfusion he)
  | .error e, .error f =>
    if h : e = f then .isTrue (by rw [h])
    else .isFalse (fun he => h (Except.error.inj he))

/-- C3: for every token of the form hex-ip colon hex-port, the address
decoder splits on the last colon (`rsplit_once` returns the parts before
and after the last colon, the right part being colon-free), parses the
left part as a base-16 `u32` and the right part as a base-16 `u16`, and
returns both raw parsed integers unchanged — no endianness correction;
in particular decoding 0100007F:1F90 yields ip 0x0100007F and
port 0x1F90 = 8080. -/
theorem parse_hex_sockaddr_spec :
    (∀ ip_str port_str v w, u32_from_str_radix ip_str = some v →
      u16_from_str_radix port_str = some w → ':' ∉ port_str →
      parse_hex_sockaddr (ip_str ++ ':' :: port_str) = .ok ⟨v, w⟩) ∧
    (∀ addr a b, rsplit_once ':' addr = some (a, b) →
      addr = a ++ ':' :: b ∧ ':' ∉ b) ∧
    parse_hex_sockaddr "0100007F:1F90".toList = .ok ⟨0x0100007F, 0x1F90⟩ := by
  refine ⟨?_, ?_, by decide⟩
  · intro ip_str port_str v w h32 h16 hnc
    simp [parse_hex_sockaddr, rsplit_once_append ':' ip_str port_str hnc, h32, h16]
  · intro addr a b h
    exact rsplit_once_eq_some ':' addr a b h

/-- C3 witness: the general part of the statement applied at the concrete
token AB:CD. -/
theorem parse_hex_sockaddr_spec_witness :
    parse_hex_sockaddr ("AB".toList ++ ':' :: "CD".toList) = .ok ⟨0xAB, 0xCD⟩ :=
  parse_hex_sockaddr_spec.1 "AB".toList "CD".toList 0xAB 0xCD
    (by decide) (by decide) (by decide)

/-- C5: the address decoder fails, and fails with `malformedAddress`
rather than any other error, exactly when the token has no colon, or the
part before the last colon is not a valid base-16 `u32`, or the part
after it is not a valid base-16 `u16`. -/
theorem parse_hex_sockaddr_err_iff (addr : List Char) :
    (∀ e, parse_hex_sockaddr addr = .error e → e = .malformedAddress) ∧
    (parse_hex_sockaddr addr = .error .malformedAddress ↔
      ':' ∉ addr ∨ ∃ a b, rsplit_once ':' addr = some (a, b) ∧
        (u32_from_str_radix a = none ∨ u16_from_str_radix b = none)) := by
  cases h : rsplit_once ':' addr with
  | none =>
    have hp : parse_hex_sockaddr addr = .error .malformedAddress := by
      simp [parse_hex_sockaddr, h]
    refine ⟨fun e he => ?_, ?_⟩
    · rw [hp] at he
      exact (Except.error.inj he).symm
    · exact ⟨fun _ => Or.inl ((rsplit_once_eq_none_iff ':' addr).mp h), fun _ => hp⟩
  | some p =>
    obtain ⟨a, b⟩ := p
    have hmem : ':' ∈ addr := by
      by_contra hc
      rw [← rsplit_once_eq_none_iff ':' addr, h] at hc
      exact Option.noConfusion hc
    cases h32 : u32_from_str_radix a with
    | none =>
      have hp : parse_hex_sockaddr addr = .error .malformedAddress := by
        cases h16 : u16_from_str_radix b <;> simp [parse_hex_sockaddr, h, h32, h16]
      refine ⟨fun e he => by rw [hp] at he; exact (Except.error.inj he).symm, ?_⟩
      exact ⟨fun _ => Or.inr ⟨a, b, rfl, Or.inl h32⟩, fun _ => hp⟩
    | some v =>
      cases h16 : u16_from_str_radix b with
      | none =>
        have hp : parse_hex_sockaddr addr = .error .malformedAddress := by
          simp [parse_hex_sockaddr, h, h32, h16]
        refine ⟨fun e he => by rw [hp] at he; exact (Except.error.inj he).symm, ?_⟩
        exact ⟨fun _ => Or.inr ⟨a, b, rfl, Or.inr h16⟩, fun _ => hp⟩
      | some w =>
        have hp : parse_hex_sockaddr addr = .ok ⟨v, w⟩ := by
          simp [parse_hex_sockaddr, h, h32, h16]
        refine ⟨fun e he => by rw [hp] at he; exact Except.noConfusion he, ?_⟩
        constructor
        · intro hl
          rw [hp] at hl
          exact Except.noConfusion hl
        · rintro (hl | ⟨a', b', heq, hbad⟩)
          · exact absurd hmem hl
          · injection heq with heq'
            injection heq' with ha hb
            subst ha
            subst hb
            rcases hbad with hbad | hbad
            · rw [h32] at hbad
              exact Option.noConfusion hbad
            · rw [h16] at hbad
              exact Option.noConfusion hbad

/-- C5 witness: the error characterization applied at the colon-free
token zz, which the decoder rejects with `malformedAddress`. -/
theorem parse_hex_sockaddr_err_iff_witness :
    parse_hex_sockaddr "zz".toList = .error .malformedAddress :=
  (parse_hex_sockaddr_err_iff "zz".toList).2.mpr (Or.inl (by decide))

/-! ### End-to-end scenario (C1) -/

/-- A process directory with one entry whose stat record names the target
executable, as the end-to-end scenarios require. -/
def ffxiv_proc_dir : List ProcEntry :=
  [⟨"123".toList, true, "123 (ffxiv_dx11.exe) S 1".toList⟩]

/-- C1 counterexample: with the header line exactly as the claim states
it — single spaces between the column labels — the rem_address span runs
from column 17 to column 29 and is only 12 columns wide, so the
13-character token 0100007F:01BB laid out in that column is truncated to
0100007F:01B and decodes to port 0x01B = 27, not 443.  The resolver
returns that truncated pair, not the pair the claim asserts. -/
theorem get_ffxiv_sockets_c1_counterexample :
    get_ffxiv_sockets ffxiv_proc_dir ["12345".toList]
      ("sl local_address rem_address st tx_queue rx_queue tr tm->when retrnsmt uid timeout inode\n0: 0100007F:1F90 0100007F:01BB 000000000 00000000 00 00000000 00000000 10000       12345").toList
      = .ok [⟨⟨0x0100007F, 0x1F90⟩, ⟨0x0100007F, 0x01B⟩⟩] ∧
    get_ffxiv_sockets ffxiv_proc_dir ["12345".toList]
      ("sl local_address rem_address st tx_queue rx_queue tr tm->when retrnsmt uid timeout inode\n0: 0100007F:1F90 0100007F:01BB 000000000 00000000 00 00000000 00000000 10000       12345").toList
      ≠ .ok [⟨⟨0x0100007F, 0x1F90⟩, ⟨0x0100007F, 0x01BB⟩⟩] := by
  constructor
  · decide
  · decide

/-- C1 amended: same scenario with the header spaced as the kernel
actually renders it (so the rem_address span, column 20 to column 34, is
wide enough for a 13-character address): for the synthetic table whose
single data row maps inode 12345 to local 0100007F:1F90 and remote
0100007F:01BB, and the socket-inode set containing 12345, the resolver
returns exactly one pair with local ip 0x0100007F port 8080 and remote
ip 0x0100007F port 443. -/
theorem get_ffxiv_sockets_c1_amended :
    get_ffxiv_sockets ffxiv_proc_dir ["12345".toList]
      ("  sl  local_address rem_address   st tx_queue rx_queue tr tm->when retrnsmt   uid  timeout inode\n   0: 0100007F:1F90 0100007F:01BB 01 00000000 00000000 00 00000000 00000000   1000 0       12345").toList
      = .ok [⟨⟨0x0100007F, 8080⟩, ⟨0x0100007F, 443⟩⟩] := by
  decide

/-! ### Process locator failure (C6) -/

/-- The locator returns `none` once the directory is exhausted without a
match: an entry contributes a result only when it is a directory, its
name is all-numeric, and its stat record names the target executable. -/
theorem find_ffxiv_proc_path_none (entries : List ProcEntry)
    (h : ∀ e ∈ entries, e.is_dir = true → e.name.all rust_is_numeric = true →
      stat_matches e.stat = false) :
    find_ffxiv_proc_path entries = none := by
  induction entries with
  | nil => rfl
  | cons e rest ih =>
    have hrest := ih (fun e' he' => h e' (List.mem_cons_of_mem e he'))
    by_cases hd : e.is_dir = false
    · simp [find_ffxiv_proc_path, hd, hrest]
    · have hdir : e.is_dir = true := by
        revert hd
        cases e.is_dir <;> simp
      by_cases hn : e.name.any (fun c => !(rust_is_numeric c)) = true
      · simp [find_ffxiv_proc_path, hd, hn, hrest]
      · have hall : e.name.all rust_is_numeric = true := by
          rw [List.all_eq_true]
          intro c hc
          by_contra hfalse
          apply hn
          rw [List.any_eq_true]
          refine ⟨c, hc, ?_⟩
          revert hfalse
          cases rust_is_numeric c <;> simp
        have hs := h e (List.mem_cons_self e rest) hdir hall
        simp [find_ffxiv_proc_path, hd, hn, hrest, hs]

/-- C6: when no entry of the process directory is a process whose
command name matches the target executable, the socket resolver fails
with `notFound`; the failure carries no partial result list. -/
theorem get_ffxiv_sockets_notFound (entries : List ProcEntry)
    (fds : List (List Char)) (text : List Char)
    (h : ∀ e ∈ entries, e.is_dir = true → e.name.all rust_is_numeric = true →
      stat_matches e.stat = false) :
    get_ffxiv_sockets entries fds text = .error .notFound := by
  simp [get_ffxiv_sockets, find_ffxiv_proc_path_none entries h]

/-- C6 witness: a directory holding one non-process entry and one
process whose stat record names a different executable. -/
theorem get_ffxiv_sockets_notFound_witness :
    get_ffxiv_sockets
      [⟨"abc".toList, true, "0 (systemd) S".toList⟩,
       ⟨"7".toList, true, "7 (bash) S 1".toList⟩]
      ["12345".toList] "sl inode".toList = .error .notFound :=
  get_ffxiv_sockets_notFound _ _ _ (by decide)

/-! ### Missing header line (C7) -/

/-- C7: when the located process exists but the connection-table text
has no lines at all — as the empty text — the resolver fails with
`malformedTable` and with no other error. -/
theorem get_ffxiv_sockets_malformedTable (entries : List ProcEntry)
    (fds : List (List Char)) (text : List Char) (p : List Char)
    (hfind : find_ffxiv_proc_path entries = some p)
    (hlines : rust_lines text = []) :
    get_ffxiv_sockets entries fds text = .error .malformedTable := by
  simp [get_ffxiv_sockets, hfind, hlines]

/-- C7 witness: the empty connection-table text. -/
theorem get_ffxiv_sockets_malformedTable_witness :
    get_ffxiv_sockets ffxiv_proc_dir ["12345".toList] "".toList
      = .error .malformedTable :=
  get_ffxiv_sockets_malformedTable _ _ _ "123".toList (by decide) (by decide)

/-! ### Row-level field extraction (C4) -/

/-- The condition under which the slice for one field fits inside a data
line, so that the unchecked Rust slice does not panic. -/
def span_fits (conn : List Char) (f : HeaderField) : Bool :=
  match f.end_col with
  | some e => decide (f.start_col ≤ e) && decide (e ≤ conn.length)
  | none => decide (f.start_col ≤ conn.length)

/-- C4 counterexample: the claim says extraction clamps each span to the
line length, treats short slices as empty strings, and always succeeds
on short lines.  The source slices without clamping: under the header
aa bb (spans 0 to 3 and 3 onward) the one-character line x makes
`&conn[0..3]` panic, modelled as the `sliceOutOfRange` error — not a
successful extraction. -/
theorem parse_conn_row_c4_counterexample :
    parse_conn_row (parse_header "aa bb".toList) "x".toList
      = .error .sliceOutOfRange := by
  decide

/-- C4 amended: per-field extraction slices the span of each field with
no clamping, so it panics (fails) when the line is shorter than the end
column of a bounded field or than the start column of the final field;
whenever
every span fits inside the line, extraction succeeds and yields, for
each field in header order, the first whitespace-delimited token of the
trimmed slice. -/
theorem parse_conn_row_spans_fit (headers : List HeaderField) (conn : List Char)
    (h : ∀ f ∈ headers, span_fits conn f = true) :
    parse_conn_row headers conn =
      .ok (headers.map (fun f => (f.name, field_token (span_slice conn f)))) := by
  induction headers with
  | nil => rfl
  | cons f fs ih =>
    have hf := h f (List.mem_cons_self f fs)
    have hfs := ih (fun g hg => h g (List.mem_cons_of_mem f hg))
    have hslice : slice_field conn f = .ok (span_slice conn f) := by
      cases he : f.end_col with
      | some e =>
        rw [span_fits, he] at hf
        simp only [Bool.and_eq_true, decide_eq_true_eq] at hf
        simp [slice_field, span_slice, he, hf.1, hf.2]
      | none =>
        rw [span_fits, he] at hf
        simp only [decide_eq_true_eq] at hf
        simp [slice_field, span_slice, he, hf]
    simp only [parse_conn_row, hslice, hfs, bind, Except.bind, pure, Except.pure,
      List.map_cons]

/-- C4 amended witness: the same header over a line long enough for both
spans. -/
theorem parse_conn_row_spans_fit_witness :
    parse_conn_row (parse_header "aa bb".toList) "uv 9".toList =
      .ok ((parse_header "aa bb".toList).map
        (fun f => (f.name, field_token (span_slice "uv 9".toList f)))) :=
  parse_conn_row_spans_fit (parse_header "aa bb".toList) "uv 9".toList (by decide)

/-! ### Empty inode set (C8) -/

/-- With an empty socket set the row pipeline can only ever succeed with
the empty list: the filter retains no row.  (It can still fail, since
rows are sliced and their inode looked up before the filter runs.) -/
theorem process_conns_nil_fds (headers : List HeaderField)
    (conns : List (List Char)) :
    ∀ res, process_conns headers [] conns = .ok res → res = [] := by
  induction conns with
  | nil =>
    intro res h
    exact (Except.ok.inj h).symm
  | cons conn rest ih =>
    intro res h
    cases hp : parse_conn_row headers conn with
    | error e =>
      rw [process_conns] at h
      simp only [hp, bind, Except.bind] at h
      exact Except.noConfusion h
    | ok record =>
      cases hg : record_get record "inode".toList with
      | error e =>
        rw [process_conns] at h
        simp only [hp, hg, bind, Except.bind] at h
        exact Except.noConfusion h
      | ok ino =>
        rw [process_conns] at h
        simp only [hp, hg, bind, Except.bind, List.contains, List.elem] at h
        exact ih res h

/-- C8 counterexample: the claim promises the empty list for every table
content once the inode set is empty, but rows are parsed before the
filter consults the set: under the header aa bb the short data row x
makes the resolver fail with `sliceOutOfRange` even though the inode set
is empty — it does not return the empty list. -/
theorem get_ffxiv_sockets_c8_counterexample :
    get_ffxiv_sockets ffxiv_proc_dir [] "aa bb\nx".toList
      = .error .sliceOutOfRange ∧
    get_ffxiv_sockets ffxiv_proc_dir [] "aa bb\nx".toList
      ≠ .ok [] := by
  constructor
  · decide
  · decide

/-- C8 amended: if the socket-inode set is empty, then whenever the
resolver returns a list at all, that list is empty — no row is ever
retained; table contents can still make the resolver fail, but never
produce a non-empty result. -/
theorem get_ffxiv_sockets_empty_fds (entries : List ProcEntry)
    (text : List Char) (res : List SocketAddrPair)
    (h : get_ffxiv_sockets entries [] text = .ok res) : res = [] := by
  rw [get_ffxiv_sockets] at h
  cases hf : find_ffxiv_proc_path entries with
  | none =>
    rw [hf] at h
    exact Except.noConfusion h
  | some p =>
    rw [hf] at h
    cases hl : rust_lines text with
    | nil =>
      rw [hl] at h
      exact Except.noConfusion h
    | cons header_line conns =>
      rw [hl] at h
      exact process_conns_nil_fds (parse_header header_line) conns res h

/-- C8 amended witness: a table with a header and no data rows, where
the resolver does return a list and that list is empty. -/
theorem get_ffxiv_sockets_empty_fds_witness :
    get_ffxiv_sockets ffxiv_proc_dir [] "sl inode".toList = .ok [] ∧
    ([] : List SocketAddrPair) = [] :=
  ⟨by decide, get_ffxiv_sockets_empty_fds ffxiv_proc_dir "sl inode".toList [] (by decide)⟩

/-! ### The filter precedes decoding (C10) -/

/-- C10: a data row whose inode is not a member of the socket set is
dropped by the filter before either of its address fields reaches the
decoder: processing such a row is the same as processing the remaining
rows, whatever its local_address and rem_address slices hold, so
unparsable address tokens in non-matching rows can never fail the
query. -/
theorem process_conns_skips_unmatched (headers : List HeaderField)
    (fds : List (List Char)) (conn : List Char) (conns : List (List Char))
    (record : List (List Char × List Char)) (ino : List Char)
    (h1 : parse_conn_row headers conn = .ok record)
    (h2 : record_get record "inode".toList = .ok ino)
    (h3 : fds.contains ino = false) :
    process_conns headers fds (conn :: conns) = process_conns headers fds conns := by
  rw [process_conns]
  simp only [h1, h2, h3, bind, Except.bind, Bool.false_eq_true, if_false]

/-- C10 witness: a row whose address columns hold tokens the decoder
would reject, skipped because its inode 4242 is not in the set. -/
theorem process_conns_skips_unmatched_witness :
    process_conns (parse_header "local_address rem_address inode".toList)
      ["1".toList] ["GARBAGE       NOTANADDR   4242".toList] = .ok [] :=
  (process_conns_skips_unmatched
    (parse_header "local_address rem_address inode".toList) ["1".toList]
    "GARBAGE       NOTANADDR   4242".toList []
    [("local_address".toList, "GARBAGE".toList),
     ("rem_address".toList, "NOTANADDR".toList),
     ("inode".toList, "4242".toList)]
    "4242".toList (by decide) (by decide) (by decide)).trans rfl

/-! ### Membership-exact filtering in table order (C2) -/

/-- Whether one data row survives the inode filter: its record builds,
its inode field is present, and the inode is a member of the socket
set.  This is the predicate of the `filter` in main.rs line 84. -/
def row_matches (headers : List HeaderField) (fds : List (List Char))
    (conn : List Char) : Bool :=
  match parse_conn_row headers conn with
  | .error _ => false
  | .ok record =>
    match record_get record "inode".toList with
    | .error _ => false
    | .ok ino => fds.contains ino

/-- The per-row decoding step of main.rs lines 85 to 89: look up and
decode local_address, then rem_address. -/
def decode_row (headers : List HeaderField) (conn : List Char) :
    Except NetErr SocketAddrPair := do
  let record ← parse_conn_row headers conn
  let local_str ← record_get record "local_address".toList
  let local_addr ← parse_hex_sockaddr local_str
  let rem_str ← record_get record "rem_address".toList
  let rem_addr ← parse_hex_sockaddr rem_str
  pure ⟨local_addr, rem_addr⟩

/-- Decoding a list of rows in order, one pair per row. -/
def decode_rows (headers : List HeaderField) :
    List (List Char) → Except NetErr (List SocketAddrPair)
  | [] => .ok []
  | conn :: conns => do
    let p ← decode_row headers conn
    let rest ← decode_rows headers conns
    pure (p :: rest)

theorem decode_rows_length (headers : List HeaderField) :
    ∀ (l : List (List Char)) (res : List SocketAddrPair),
      decode_rows headers l = .ok res → res.length = l.length := by
  intro l
  induction l with
  | nil =>
    intro res h
    rw [← (Except.ok.inj h)]
    rfl
  | cons conn rest ih =>
    intro res h
    cases hd : decode_row headers conn with
    | error e =>
      rw [decode_rows] at h
      simp only [hd, bind, Except.bind] at h
      exact Except.noConfusion h
    | ok p =>
      cases hr : decode_rows headers rest with
      | error e =>
        rw [decode_rows] at h
        simp only [hd, hr, bind, Except.bind] at h
        exact Except.noConfusion h
      | ok ps =>
        rw [decode_rows] at h
        simp only [hd, hr, bind, Except.bind, pure, Except.pure] at h
        rw [← (Except.ok.inj h)]
        simp [ih ps hr]

/-- C2: whenever the row pipeline succeeds, its output is exactly the
in-order decoding of those data rows whose inode field is a member of
the socket set: one `SocketAddrPair` per matching row, rows with a
non-member inode contributing nothing, and the output preserving the
row order of the table (the order of the matching rows) with no
sorting. -/
theorem process_conns_filter_spec (headers : List HeaderField)
    (fds : List (List Char)) (conns : List (List Char))
    (res : List SocketAddrPair)
    (h : process_conns headers fds conns = .ok res) :
    decode_rows headers (conns.filter (row_matches headers fds)) = .ok res ∧
    res.length = (conns.filter (row_matches headers fds)).length := by
  have hmain : decode_rows headers (List.filter (row_matches headers fds) conns)
      = Except.ok res := by
    induction conns generalizing res with
    | nil =>
      rw [← (Except.ok.inj h)]
      rfl
    | cons conn rest ih =>
      cases hp : parse_conn_row headers conn with
      | error e =>
        rw [process_conns] at h
        simp only [hp, bind, Except.bind] at h
        exact Except.noConfusion h
      | ok record =>
        cases hg : record_get record "inode".toList with
        | error e =>
          rw [process_conns] at h
          simp only [hp, hg, bind, Except.bind] at h
          exact Except.noConfusion h
        | ok ino =>
          cases hc : fds.contains ino with
          | false =>
            rw [process_conns] at h
            simp only [hp, hg, hc, bind, Except.bind, Bool.false_eq_true,
              if_false] at h
            have hm : row_matches headers fds conn = false := by
              simp only [row_matches, hp, hg]
              exact hc
            rw [List.filter_cons_of_neg (by simp [hm])]
            exact ih res h
          | true =>
            rw [process_conns] at h
            simp only [hp, hg, hc, bind, Except.bind, if_true] at h
            cases hl : record_get record "local_address".toList with
            | error e =>
              simp only [hl, Except.bind] at h
              exact Except.noConfusion h
            | ok local_str =>
              cases hpl : parse_hex_sockaddr local_str with
              | error e =>
                simp only [hl, hpl, Except.bind] at h
                exact Except.noConfusion h
              | ok local_addr =>
                cases hr : record_get record "rem_address".toList with
                | error e =>
                  simp only [hl, hpl, hr, Except.bind] at h
                  exact Except.noConfusion h
                | ok rem_str =>
                  cases hpr : parse_hex_sockaddr rem_str with
                  | error e =>
                    simp only [hl, hpl, hr, hpr, Except.bind] at h
                    exact Except.noConfusion h
                  | ok rem_addr =>
                    cases hrest : process_conns headers fds rest with
                    | error e =>
                      simp only [hl, hpl, hr, hpr, hrest, Except.bind] at h
                      exact Except.noConfusion h
                    | ok pairs =>
                      simp only [hl, hpl, hr, hpr, hrest, Except.bind, pure,
                        Except.pure] at h
                      have hm : row_matches headers fds conn = true := by
                        simp only [row_matches, hp, hg]
                        exact hc
                      rw [List.filter_cons_of_pos (by simp [hm])]
                      rw [decode_rows]
                      have hdrow : decode_row headers conn = .ok ⟨local_addr, rem_addr⟩ := by
                        rw [decode_row]
                        simp only [hp, hl, hpl, hr, hpr, bind, Except.bind, pure,
                          Except.pure]
                      simp only [hdrow, ih pairs hrest, bind, Except.bind, pure,
                        Except.pure]
                      rw [← (Except.ok.inj h)]
  exact ⟨hmain, decode_rows_length headers _ res hmain⟩

/-- C2 witness: a two-row table where only the row with inode 4242 is in
the set; the pipeline output equals the in-order decoding of exactly the
matching row. -/
theorem process_conns_filter_spec_witness :
    decode_rows (parse_header "local_address  rem_address   inode".toList)
      (["0100007F:1F90  0100007F:01BB 4242".toList,
        "0A00020F:0050  00000000:0000 9999".toList].filter
        (row_matches (parse_header "local_address  rem_address   inode".toList)
          ["4242".toList]))
      = .ok [⟨⟨0x0100007F, 0x1F90⟩, ⟨0x0100007F, 0x01BB⟩⟩] ∧
    ([⟨⟨0x0100007F, 0x1F90⟩, ⟨0x0100007F, 0x01BB⟩⟩] : List SocketAddrPair).length
      = (["0100007F:1F90  0100007F:01BB 4242".toList,
          "0A00020F:0050  00000000:0000 9999".toList].filter
          (row_matches (parse_header "local_address  rem_address   inode".toList)
            ["4242".toList])).length :=
  process_conns_filter_spec
    (parse_header "local_address  rem_address   inode".toList)
    ["4242".toList]
    ["0100007F:1F90  0100007F:01BB 4242".toList,
     "0A00020F:0050  00000000:0000 9999".toList]
    [⟨⟨0x0100007F, 0x1F90⟩, ⟨0x0100007F, 0x01BB⟩⟩]
    (by decide)

/-! ### Header parser characterization (C9) -/

/-- The name of a field is the trimmed substring of the header at its
span. -/
def name_ok (header : List Char) (f : HeaderField) : Prop :=
  match f.end_col with
  | some e => f.name = rust_trim ((header.drop f.start_col).take (e - f.start_col))
  | none => f.name = rust_trim (header.drop f.start_col)

/-- Character position `j` lies inside the span of field `f`. -/
def covers (f : HeaderField) (j : Nat) : Prop :=
  f.start_col ≤ j ∧ ∀ e, f.end_col = some e → j < e

theorem parse_header_go_spec (header : List Char) :
    ∀ (rest : List Char) (i : Nat) (cfs : Option Nat) (prev : Bool)
      (fields : List HeaderField),
      header.drop i = rest →
      i ≤ header.length →
      (prev = true ↔ (i = 0 ∨ header.get? (i - 1) = some ' ')) →
      (cfs = none → fields = [] ∧ ∀ j, j < i → header.get? j = some ' ') →
      (∀ s, cfs = some s → s < i ∧ header.get? s ≠ some ' ' ∧
        (s = 0 ∨ header.get? (s - 1) = some ' ') ∧
        (∀ f ∈ fields, f.start_col < s) ∧
        (∀ f ∈ fields, ∀ e, f.end_col = some e → e ≤ s)) →
      (∀ j, j < i → header.get? j ≠ some ' ' →
        (∃ f ∈ fields, covers f j) ∨ (∃ s, cfs = some s ∧ s ≤ j)) →
      (∀ f ∈ fields, name_ok header f) →
      fields.Pairwise (fun a b => a.start_col < b.start_col) →
      (∀ f ∈ fields, f.end_col ≠ none) →
      (∀ f ∈ fields, ∀ e, f.end_col = some e → 1 ≤ e ∧ header.get? (e - 1) = some ' ') →
      (∀ f ∈ parse_header_go header i rest cfs prev fields, name_ok header f) ∧
      (parse_header_go header i rest cfs prev fields).Pairwise
        (fun a b => a.start_col < b.start_col) ∧
      (∀ j, j < header.length → header.get? j ≠ some ' ' →
        ∃ f ∈ parse_header_go header i rest cfs prev fields, covers f j) ∧
      (∀ f ∈ parse_header_go header i rest cfs prev fields, ∀ e,
        f.end_col = some e → 1 ≤ e ∧ header.get? (e - 1) = some ' ') ∧
      (∀ f ∈ (parse_header_go header i rest cfs prev fields).dropLast,
        f.end_col ≠ none) ∧
      (∀ l, (parse_header_go header i rest cfs prev fields).getLast? = some l →
        l.end_col = none) := by
  intro rest
  induction rest with
  | nil =>
    intro i cfs prev fields hrest hi hprev hnone hsome hcov hname hpair hbnd hrunstart
    have hlen : header.length ≤ i := by
      rw [← List.drop_eq_nil_iff_le]
      exact hrest
    have hieq : i = header.length := le_antisymm hi hlen
    cases cfs with
    | none =>
      obtain ⟨hf0, hsp⟩ := hnone rfl
      subst hf0
      simp only [parse_header_go]
      refine ⟨by simp, by simp, ?_, by simp, by simp, by simp⟩
      intro j hj hns
      rw [← hieq] at hj
      exact absurd (hsp j hj) hns
    | some s =>
      obtain ⟨hsi, hsns, hsrs, hstarts, hends⟩ := hsome s rfl
      simp only [parse_header_go]
      refine ⟨?_, ?_, ?_, ?_, ?_, ?_⟩
      · intro f hf
        rcases List.mem_append.mp hf with hfl | hfr
        · exact hname f hfl
        · rw [List.mem_singleton] at hfr
          subst hfr
          rfl
      · rw [List.pairwise_append]
        refine ⟨hpair, List.pairwise_singleton _ _, ?_⟩
        intro a ha b hb
        rw [List.mem_singleton] at hb
        subst hb
        exact hstarts a ha
      · intro j hj hns
        rw [← hieq] at hj
        rcases hcov j hj hns with ⟨f, hf, hcf⟩ | ⟨s', hs', hle⟩
        · exact ⟨f, List.mem_append_left _ hf, hcf⟩
        · injection hs' with hs'
          subst hs'
          refine ⟨_, List.mem_append_right _ (List.mem_singleton_self _), hle, ?_⟩
          intro e he
          exact Option.noConfusion he
      · intro f hf e he
        rcases List.mem_append.mp hf with hfl | hfr
        · exact hrunstart f hfl e he
        · rw [List.mem_singleton] at hfr
          subst hfr
          exact Option.noConfusion he
      · rw [List.dropLast_concat]
        exact hbnd
      · intro l hl
        rw [List.getLast?_concat] at hl
        rw [← Option.some.inj hl]
  | cons chr rest ih =>
    intro i cfs prev fields hrest hi hprev hnone hsome hcov hname hpair hbnd hrunstart
    have hget : header.get? i = some chr := by
      have h0 : (header.drop i).get? 0 = some chr := by
        rw [hrest]
        rfl
      rwa [List.get?_drop, Nat.add_zero] at h0
    obtain ⟨hilt, -⟩ := List.get?_eq_some.mp hget
    have hrest' : header.drop (i + 1) = rest := by
      have h1 : (header.drop i).drop 1 = rest := by
        rw [hrest]
        rfl
      rw [← h1, List.drop_drop]
    by_cases hbr : chr ≠ ' ' ∧ prev = true
    · -- a new field starts at column i
      have hprev' : (chr == ' ') = true ↔ (i + 1 = 0 ∨ header.get? (i + 1 - 1) = some ' ') := by
        rw [beq_iff_eq, Nat.add_sub_cancel]
        constructor
        · intro h
          exact absurd h hbr.1
        · rintro (h | h)
          · exact absurd h (by omega)
          · rw [hget] at h
            exact absurd (Option.some.inj h) hbr.1
      have hstart_run : i = 0 ∨ header.get? (i - 1) = some ' ' := hprev.mp hbr.2
      cases cfs with
      | some s =>
        obtain ⟨hsi, hsns, hsrs, hstarts, hends⟩ := hsome s rfl
        have hgo : parse_header_go header i (chr :: rest) (some s) prev fields
            = parse_header_go header (i + 1) rest (some i) (chr == ' ')
              (fields ++ [⟨rust_trim ((header.drop s).take (i - s)), s, some i⟩]) := by
          conv_lhs => rw [parse_header_go]
          rw [if_pos hbr]
        rw [hgo]
        refine ih (i + 1) (some i) (chr == ' ') _ hrest' (by omega) hprev'
          ?_ ?_ ?_ ?_ ?_ ?_ ?_
        · intro h
          exact Option.noConfusion h
        · intro s' hs'
          injection hs' with hs'
          subst hs'
          refine ⟨by omega, ?_, hstart_run, ?_, ?_⟩
          · rw [hget]
            intro hcontra
            exact hbr.1 (Option.some.inj hcontra)
          · intro f hf
            rcases List.mem_append.mp hf with hfl | hfr
            · exact lt_trans (hstarts f hfl) hsi
            · rw [List.mem_singleton] at hfr
              subst hfr
              exact hsi
          · intro f hf e he
            rcases List.mem_append.mp hf with hfl | hfr
            · exact le_trans (hends f hfl e he) (le_of_lt hsi)
            · rw [List.mem_singleton] at hfr
              subst hfr
              injection he with he
              subst he
              exact le_refl _
        · intro j hj hjns
          rcases Nat.lt_or_ge j i with hji | hji
          · rcases hcov j hji hjns with ⟨f, hf, hcf⟩ | ⟨s', hseq, hsle⟩
            · exact Or.inl ⟨f, List.mem_append_left _ hf, hcf⟩
            · injection hseq with hseq
              subst hseq
              refine Or.inl ⟨_, List.mem_append_right _ (List.mem_singleton_self _), hsle, ?_⟩
              intro e he
              injection he with he
              subst he
              exact hji
          · have hje : j = i := by omega
            subst hje
            exact Or.inr ⟨j, rfl, le_refl j⟩
        · intro f hf
          rcases List.mem_append.mp hf with hfl | hfr
          · exact hname f hfl
          · rw [List.mem_singleton] at hfr
            subst hfr
            rfl
        · rw [List.pairwise_append]
          refine ⟨hpair, List.pairwise_singleton _ _, ?_⟩
          intro a ha b hb
          rw [List.mem_singleton] at hb
          subst hb
          exact hstarts a ha
        · intro f hf
          rcases List.mem_append.mp hf with hfl | hfr
          · exact hbnd f hfl
          · rw [List.mem_singleton] at hfr
            subst hfr
            simp
        · intro f hf e he
          rcases List.mem_append.mp hf with hfl | hfr
          · exact hrunstart f hfl e he
          · rw [List.mem_singleton] at hfr
            subst hfr
            injection he with he
            subst he
            refine ⟨by omega, ?_⟩
            rcases hstart_run with h0 | h0
            · exact absurd h0 (by omega)
            · exact h0
      | none =>
        obtain ⟨hf0, hsp⟩ := hnone rfl
        subst hf0
        have hgo : parse_header_go header i (chr :: rest) none prev []
            = parse_header_go header (i + 1) rest (some i) (chr == ' ') [] := by
          conv_lhs => rw [parse_header_go]
          rw [if_pos hbr]
        rw [hgo]
        refine ih (i + 1) (some i) (chr == ' ') [] hrest' (by omega) hprev'
          ?_ ?_ ?_ ?_ ?_ ?_ ?_
        · intro h
          exact Option.noConfusion h
        · intro s' hs'
          injection hs' with hs'
          subst hs'
          refine ⟨by omega, ?_, hstart_run, by simp, by simp⟩
          rw [hget]
          intro hcontra
          exact hbr.1 (Option.some.inj hcontra)
        · intro j hj hjns
          rcases Nat.lt_or_ge j i with hji | hji
          · exact absurd (hsp j hji) hjns
          · have hje : j = i := by omega
            subst hje
            exact Or.inr ⟨j, rfl, le_refl j⟩
        · simp
        · exact List.Pairwise.nil
        · simp
        · simp
    · -- no new field starts here
      have hbr' : chr = ' ' ∨ prev = false := by
        rcases not_and_or.mp hbr with h | h
        · exact Or.inl (not_not.mp h)
        · cases prev with
          | false => exact Or.inr rfl
          | true => exact absurd rfl h
      have hgo : parse_header_go header i (chr :: rest) cfs prev fields
          = parse_header_go header (i + 1) rest cfs (chr == ' ') fields := by
        cases cfs <;> (conv_lhs => rw [parse_header_go]) <;> rw [if_neg hbr]
      rw [hgo]
      refine ih (i + 1) cfs (chr == ' ') fields hrest' (by omega)
        ?_ ?_ ?_ ?_ ?_ ?_ ?_ ?_
      · rw [beq_iff_eq, Nat.add_sub_cancel]
        constructor
        · intro h
          right
          rw [hget, h]
        · rintro (h | h)
          · exact absurd h (by omega)
          · rw [hget] at h
            exact Option.some.inj h
      · intro hc
        obtain ⟨hf0, hsp⟩ := hnone hc
        refine ⟨hf0, fun j hj => ?_⟩
        rcases Nat.lt_or_ge j i with hji | hji
        · exact hsp j hji
        · have hje : j = i := by omega
          subst hje
          rcases hbr' with hc' | hc'
          · rw [hget, hc']
          · exfalso
            have hnr : ¬(j = 0 ∨ header.get? (j - 1) = some ' ') := by
              intro hr
              have := hprev.mpr hr
              rw [hc'] at this
              exact Bool.noConfusion this
            by_cases hi0 : j = 0
            · exact hnr (Or.inl hi0)
            · exact hnr (Or.inr (hsp (j - 1) (by omega)))
      · intro s hs
        obtain ⟨hsi, hsns, hsrs, hstarts, hends⟩ := hsome s hs
        exact ⟨by omega, hsns, hsrs, hstarts, hends⟩
      · intro j hj hjns
        rcases Nat.lt_or_ge j i with hji | hji
        · exact hcov j hji hjns
        · have hje : j = i := by omega
          subst hje
          have hchr : ¬ chr = ' ' := by
            intro hc
            apply hjns
            rw [hget, hc]
          have hpf : prev = false := by
            rcases hbr' with hc' | hc'
            · exact absurd hc' hchr
            · exact hc'
          have hnr : ¬(j = 0 ∨ header.get? (j - 1) = some ' ') := by
            intro hr
            have := hprev.mpr hr
            rw [hpf] at this
            exact Bool.noConfusion this
          cases hcfs : cfs with
          | none =>
            exfalso
            obtain ⟨hf0, hsp⟩ := hnone hcfs
            by_cases hi0 : j = 0
            · exact hnr (Or.inl hi0)
            · exact hnr (Or.inr (hsp (j - 1) (by omega)))
          | some s =>
            obtain ⟨hsi, -, -, -, -⟩ := hsome s hcfs
            exact Or.inr ⟨s, rfl, by omega⟩
      · exact hname
      · exact hpair
      · exact hbnd
      · exact hrunstart

/-- C9: the header parser is total — every input yields a field list and
the empty header yields the empty list — and for every header: field
start columns are non-decreasing; every non-space run of the header lies
inside the span of a single field (any block of consecutive non-space
characters is covered by one field from its start column to its end
column, the last field being unbounded); the name of each field is the
trimmed substring of the header at its span; and only the final field
has an unbounded end column. -/
theorem parse_header_props (header : List Char) :
    parse_header ([] : List Char) = [] ∧
    (parse_header header).Pairwise (fun a b => a.start_col ≤ b.start_col) ∧
    (∀ r k, k ≠ 0 → r + k ≤ header.length →
      (∀ j, r ≤ j → j < r + k → header.get? j ≠ some ' ') →
      ∃ f ∈ parse_header header, f.start_col ≤ r ∧
        ∀ e, f.end_col = some e → r + k ≤ e) ∧
    (∀ f ∈ parse_header header, name_ok header f) ∧
    (∀ f ∈ (parse_header header).dropLast, f.end_col ≠ none) ∧
    (∀ l, (parse_header header).getLast? = some l → l.end_col = none) := by
  obtain ⟨hname, hpair, hcov, hrunstart, hbnd, hlast⟩ :=
    parse_header_go_spec header header 0 none true []
      rfl (Nat.zero_le _) (by simp)
      (fun _ => ⟨rfl, fun j hj => absurd hj (by omega)⟩)
      (fun s hs => Option.noConfusion hs)
      (fun j hj => absurd hj (by omega))
      (fun f hf => absurd hf (List.not_mem_nil f))
      List.Pairwise.nil
      (fun f hf => absurd hf (List.not_mem_nil f))
      (fun f hf => absurd hf (List.not_mem_nil f))
  refine ⟨rfl, hpair.imp le_of_lt, ?_, hname, hbnd, hlast⟩
  intro r k hk hlen hrun
  have hrlt : r < header.length := by omega
  obtain ⟨f, hf, hcf⟩ := hcov r hrlt (hrun r (le_refl r) (by omega))
  refine ⟨f, hf, hcf.1, ?_⟩
  intro e he
  by_contra hlt
  have h1e := hrunstart f hf e he
  have hre : r < e := hcf.2 e he
  have hens : header.get? (e - 1) ≠ some ' ' := hrun (e - 1) (by omega) (by omega)
  exact hens h1e.2

/-- C9 witness: applied to the header ab cd — the non-space run cd at
columns 3 and 4 lies inside the span of a single field. -/
theorem parse_header_props_witness :
    ∃ f ∈ parse_header "ab cd".toList, f.start_col ≤ 3 ∧
      ∀ e, f.end_col = some e → 5 ≤ e :=
  (parse_header_props "ab cd".toList).2.2.1 3 2 (by decide) (by decide)
    (by
      intro j h1 h2
      have hj : j = 3 ∨ j = 4 := by omega
      rcases hj with h | h <;> subst h <;> decide)
